import Mathlib

/-
Verification of the rfc command-line tool (document identity model, cache
storage engine, search filtering, fetch-and-cache pipeline) against its
specification.  Rust strings are modelled as lists of Unicode code points
(each Rust char is one Nat), so character-level operations such as trimming
and lower-casing are explicit arithmetic on code points.
-/

/-- Strings are modelled as lists of Unicode code points (Rust chars). -/
abbrev Str := List Nat

/-- Turn a Lean string literal into the code-point model. -/
def str (s : String) : Str := s.toList.map Char.toNat

/-- Model of Rust char::is_whitespace restricted to the ASCII whitespace
characters (space, tab, line feed, carriage return). -/
def isWs (c : Nat) : Bool := c == 32 || c == 9 || c == 10 || c == 13

/-- ASCII lower-casing of one code point, the model of what Rust
str::to_lowercase does on the ASCII inputs this program manipulates. -/
def lowerChar (c : Nat) : Nat := if 65 ≤ c ∧ c ≤ 90 then c + 32 else c

/-- Model of str::to_lowercase. -/
def lowerStr (s : Str) : Str := s.map lowerChar

/-- Model of str::trim: drop leading and trailing whitespace. -/
def trimStr (s : Str) : Str := List.rdropWhile isWs (s.dropWhile isWs)

/-- ASCII digit test for a code point. -/
def isDigit (c : Nat) : Bool := 48 ≤ c && c ≤ 57

/-- Numeric value of a string of ASCII digit code points, most significant
first (the usual left fold). -/
def digitsVal (s : Str) : Nat := s.foldl (fun a c => 10 * a + (c - 48)) 0

/-- Strip one optional leading plus sign, as Rust u32 parsing allows. -/
def plusStrip (s : Str) : Str :=
  match s with
  | [] => []
  | c :: rest => if c = 43 then rest else c :: rest

/-- Model of Rust str::parse::<u32>: an optional leading plus sign, then one
or more ASCII digits, rejected when the value does not fit in 32 bits. -/
def parseU32 (s : Str) : Option Nat :=
  if (plusStrip s).isEmpty then none
  else if (plusStrip s).all isDigit then
    if digitsVal (plusStrip s) < 2 ^ 32 then some (digitsVal (plusStrip s))
    else none
  else none

/-- Model of str::strip with a pattern argument: remove the given
leading pattern, or fail. -/
def stripPre : Str → Str → Option Str
  | [], s => some s
  | _ :: _, [] => none
  | p :: ps, c :: cs => if p = c then stripPre ps cs else none

/-- Model of str::starts_with. -/
def startsWith (pre s : Str) : Bool := (stripPre pre s).isSome

/-- Model of str::contains with a string pattern: contiguous substring
search. -/
def containsSub (s pat : Str) : Bool :=
  match s with
  | [] => pat.isEmpty
  | _ :: rest => startsWith pat s || containsSub rest pat

/-- The document identifier (enum DocumentType in src/models/document.rs):
either a published RFC carrying its number, or an Internet-Draft carrying
its name. -/
inductive DocumentType where
  | Rfc : Nat → DocumentType
  | Draft : Str → DocumentType
deriving DecidableEq, Repr

/-- The normalisation both parse branches share: trim, then lower-case,
exactly the first line of DocumentType::parse. -/
def normStr (s : Str) : Str := lowerStr (trimStr s)

/-- The first branch of DocumentType::parse: strip a literal rfc, trim the
remainder, and parse it as u32. -/
def rfcBranch (s : Str) : Option Nat :=
  match stripPre (str "rfc") s with
  | some rest => parseU32 (trimStr rest)
  | none => none

/-- The body of DocumentType::parse after normalisation: try the rfc
branch, then a bare number, then the draft test, else no match. -/
def parseCore (s : Str) : Option DocumentType :=
  match rfcBranch s with
  | some n => some (DocumentType.Rfc n)
  | none =>
    match parseU32 s with
    | some n => some (DocumentType.Rfc n)
    | none =>
      if startsWith (str "draft-") s || containsSub s (str "draft") then
        some (DocumentType.Draft s)
      else none

/-- Embedding of DocumentType::parse (src/models/document.rs, lines 18 to
40). -/
def DocumentType.parse (input : Str) : Option DocumentType :=
  parseCore (normStr input)

/-- Decimal representation of a natural number, the model of Rust integer
formatting. -/
def natRepr (n : Nat) : Str :=
  if n = 0 then [48] else ((Nat.digits 10 n).map (fun d => 48 + d)).reverse

/-- Embedding of DocumentType::name: the canonical cache and URL key. -/
def DocumentType.name : DocumentType → Str
  | DocumentType.Rfc n => str "rfc" ++ natRepr n
  | DocumentType.Draft nm => nm

/-- Embedding of DocumentType::display_name. -/
def DocumentType.display_name : DocumentType → Str
  | DocumentType.Rfc n => str "RFC " ++ natRepr n
  | DocumentType.Draft nm => nm

/-- Embedding of parse_document (src/main.rs, lines 113 to 127): fall back
to synthesising a draft name from the raw input when DocumentType::parse
finds no match.  The Rust function returns Result but never errs, so it is
modelled as total. -/
def parse_document (doc : Str) : DocumentType :=
  match DocumentType.parse doc with
  | some d => d
  | none =>
    if startsWith (str "draft-") doc then DocumentType.Draft doc
    else DocumentType.Draft (str "draft-" ++ doc)

/-- Document content format (enum Format in src/models/document.rs). -/
inductive Format where
  | Html : Format
  | Text : Format
deriving DecidableEq, Repr

/-- Embedding of Format::extension. -/
def Format.extension : Format → Str
  | Format.Html => str "html"
  | Format.Text => str "txt"

/-- The cache directory contents: an association list from path (relative
to the cache root) to file content.  This models the directory that
CacheManager exclusively owns. -/
abbrev FS := List (Str × Str)

/-- Does a file exist at this path. -/
def fsHas (fs : FS) (p : Str) : Bool := fs.any (fun e => decide (e.1 = p))

/-- Read a file: absent (for whatever reason, missing or unreadable) is
none, matching how the code absorbs read failures with ok(). -/
def fsRead (fs : FS) (p : Str) : Option Str :=
  (fs.find? (fun e => decide (e.1 = p))).map (fun e => e.2)

/-- Delete a file at a path (fs::remove_file on the happy path). -/
def fsErase (fs : FS) (p : Str) : FS := fs.filter (fun e => decide (e.1 ≠ p))

/-- Write (create or overwrite) a file (fs::write on the happy path). -/
def fsWrite (fs : FS) (p c : Str) : FS := (p, c) :: fsErase fs p

/-- Embedding of CacheManager::document_path: documents/<name>.<ext>
relative to the cache root. -/
def document_path (d : DocumentType) (f : Format) : Str :=
  str "documents/" ++ d.name ++ str "." ++ f.extension

/-- Embedding of CacheManager::metadata_path: documents/<name>.meta. -/
def metadata_path (d : DocumentType) : Str :=
  str "documents/" ++ d.name ++ str ".meta"

/-- Embedding of CacheManager::get_document: read, absorbing failures into
none. -/
def get_document (fs : FS) (d : DocumentType) (f : Format) : Option Str :=
  fsRead fs (document_path d f)

/-- Embedding of CacheManager::store_document on the happy path (directory
creation and the write succeed). -/
def store_document (fs : FS) (d : DocumentType) (f : Format) (content : Str) : FS :=
  fsWrite fs (document_path d f) content

/-- Embedding of CacheManager::remove (src/cache/storage.rs, lines 78 to
100) on the happy path: delete the html file if present, the text file if
present, and the metadata file if present; report whether a content file
was deleted. -/
def remove (fs : FS) (d : DocumentType) : FS × Bool :=
  let hp := document_path d Format.Html
  let tp := document_path d Format.Text
  let mp := metadata_path d
  let r1 := fsHas fs hp
  let fs1 := if r1 then fsErase fs hp else fs
  let r2 := fsHas fs1 tp
  let fs2 := if r2 then fsErase fs1 tp else fs1
  let fs3 := if fsHas fs2 mp then fsErase fs2 mp else fs2
  (fs3, r1 || r2)

/-- Cache metadata sidecar record (src/cache/metadata.rs); the timestamp is
modelled as a number. -/
structure CacheMetadata where
  title : Str
  cached_at : Nat
deriving DecidableEq, Repr

/-- Embedding of CacheManager::get_metadata: read the sidecar, then
deserialize; any failure in either step is absorbed into none.  The
serde_json collaborator is the opaque parameter deser. -/
def get_metadata (deser : Str → Except Str CacheMetadata) (fs : FS)
    (d : DocumentType) : Option CacheMetadata :=
  match fsRead fs (metadata_path d) with
  | none => none
  | some content =>
    match deser content with
    | Except.ok m => some m
    | Except.error _ => none

/-- Embedding of CacheManager::store_metadata on the happy path; the
serde_json serializer is the opaque parameter ser. -/
def store_metadata (ser : CacheMetadata → Str) (fs : FS) (d : DocumentType)
    (m : CacheMetadata) : FS :=
  fsWrite fs (metadata_path d) (ser m)

/-- Model of Path::file_stem on a base name: the portion before the final
dot, the whole name when there is no dot or when the only dot leads a
hidden file. -/
def fileStem (nm : Str) : Str :=
  match nm.reverse.dropWhile (fun c => !(c == 46)) with
  | [] => nm
  | [_] => nm
  | _ :: rest => rest.reverse

/-- One iteration of the loop of CacheManager::list_cached: parse the stem
of one directory entry and push the identifier unless already seen. -/
def listStep (acc : List DocumentType) (nm : Str) : List DocumentType :=
  match DocumentType.parse (fileStem nm) with
  | some d => if d ∈ acc then acc else acc ++ [d]
  | none => acc

/-- Embedding of the loop of CacheManager::list_cached (src/cache/
storage.rs, lines 103 to 125): parse the stem of every directory entry,
keeping the first occurrence of each identifier and dropping entries whose
stem does not parse. -/
def list_cached_entries (entries : List Str) : List DocumentType :=
  entries.foldl listStep []

/-- The base names found in the documents subdirectory of the cache. -/
def dirEntries (fs : FS) : List Str :=
  fs.filterMap (fun e => stripPre (str "documents/") e.1)

/-- Embedding of CacheManager::list_cached over the modelled directory. -/
def list_cached (fs : FS) : List DocumentType :=
  list_cached_entries (dirEntries fs)

/-- A cached document paired with its optional metadata (struct
CachedDocument in src/cache/storage.rs). -/
structure CachedDocument where
  doc_type : DocumentType
  metadata : Option CacheMetadata
deriving DecidableEq, Repr

/-- Embedding of CacheManager::list_cached_with_metadata. -/
def list_cached_with_metadata (deser : Str → Except Str CacheMetadata)
    (fs : FS) : List CachedDocument :=
  (list_cached fs).map (fun dt => ⟨dt, get_metadata deser fs dt⟩)

/-- A record of the remote index response (struct ApiDocument in
src/api/datatracker.rs). -/
structure ApiDocument where
  name : Str
  title : Str
  abstract_text : Option Str
  pages : Option Nat
  time : Option Str
  std_level : Option Str
  stream : Option Str
  authors : List Str
deriving DecidableEq, Repr

/-- The enriched document model (struct Document in
src/models/document.rs); the publish timestamp is modelled as a number. -/
structure Document where
  name : Str
  title : Str
  doc_type : DocumentType
  abstract_text : Option Str
  pages : Option Nat
  published : Option Nat
  status : Option Str
  authors : List Str
  stream : Option Str
  wg : Option Str
deriving DecidableEq, Repr

/-- Embedding of DataTrackerClient::is_rfc_or_draft. -/
def is_rfc_or_draft (nm : Str) : Bool :=
  startsWith (str "rfc") nm || startsWith (str "draft-") nm

/-- Embedding of DataTrackerClient::parse_doc_type: strip a literal rfc and
parse the remainder as u32, else treat the name as a draft slug. -/
def parse_doc_type (nm : Str) : DocumentType :=
  match stripPre (str "rfc") nm with
  | some numStr =>
    match parseU32 numStr with
    | some n => DocumentType.Rfc n
    | none => DocumentType.Draft nm
  | none => DocumentType.Draft nm

/-- Embedding of DataTrackerClient::convert_api_document; the RFC 3339
timestamp parser (chrono) is the opaque parameter parseTime, and a
malformed timestamp degrades to none exactly as ok() does. -/
def convert_api_document (parseTime : Str → Option Nat) (d : ApiDocument) : Document :=
  { name := d.name
    title := d.title
    doc_type := parse_doc_type d.name
    abstract_text := d.abstract_text
    pages := d.pages
    published := d.time.bind parseTime
    status := d.std_level
    authors := d.authors
    stream := d.stream
    wg := none }

/-- The search result model (struct SearchResult in src/models/search.rs,
the fields the search path populates). -/
structure SearchResult where
  documents : List Document
  has_more : Bool
  query : Str
deriving DecidableEq, Repr

/-- The document list DataTrackerClient::search builds from a parsed
response page: filter to RFCs and drafts, map into the Document model, and
take up to limit results (src/api/datatracker.rs, lines 103 to 110). -/
def searchDocuments (parseTime : Str → Option Nat) (objs : List ApiDocument)
    (limit : Nat) : List Document :=
  (((objs.filter (fun o => is_rfc_or_draft o.name)).map
    (convert_api_document parseTime)).take limit)

/-- Embedding of the pure tail of DataTrackerClient::search once a
successful response page (records plus optional next cursor) has been
parsed: build the documents and the has_more flag.  The Rust cast of the
returned count to u32 is lossless because the count never exceeds limit. -/
def searchOutcome (parseTime : Str → Option Nat) (next : Option Str)
    (objs : List ApiDocument) (query : Str) (limit : Nat) : SearchResult :=
  let documents := searchDocuments parseTime objs limit
  { documents := documents
    has_more := next.isSome || decide (documents.length = limit)
    query := query }

/-- Embedding of html_to_text (src/main.rs, lines 219 to 227): the
html2text collaborator is the opaque parameter extract, and an extraction
failure degrades to the raw html. -/
def html_to_text (extract : Str → Except Str Str) (html : Str) : Str :=
  match extract html with
  | Except.ok t => t
  | Except.error _ => html

/-- Embedding of fetch_and_store_metadata (src/main.rs, lines 202 to 216).
Modelled from the spec: the remote title lookup it performs
(DataTrackerClient::get_document, whose definition is not under src/) is an
opaque fallible collaborator whose outcome for this identifier is the
parameter lookup; per the spec it yields the title of the document on
success.  The metadata write can also fail (the question mark on
store_metadata), modelled by metaWriteOk; either failure propagates to the
caller. -/
def fetch_and_store_metadata (ser : CacheMetadata → Str)
    (lookup : Except Str Str) (metaWriteOk : Bool) (now : Nat) (fs : FS)
    (d : DocumentType) : Except Str FS :=
  match lookup with
  | Except.error e => Except.error e
  | Except.ok title =>
    if metaWriteOk then
      Except.ok (store_metadata ser fs d { title := title, cached_at := now })
    else Except.error (str "failed to write metadata")

/-- Embedding of fetch_and_cache (src/main.rs, lines 171 to 199).  The
external fetcher outcome for this identifier is the parameter fetchRes;
content is normalised to text (converting from html when needed), stored
under the text format, and then the best-effort metadata step runs: its
failure is reported as a warning and otherwise ignored. -/
def fetch_and_cache (extract : Str → Except Str Str)
    (ser : CacheMetadata → Str) (lookup : Except Str Str)
    (metaWriteOk : Bool) (now : Nat) (fs : FS) (d : DocumentType)
    (fetchRes : Except Str (Str × Format)) : Except Str (FS × Str) :=
  match fetchRes with
  | Except.error e => Except.error e
  | Except.ok (content, fmt) =>
    let text := match fmt with
      | Format.Text => content
      | Format.Html => html_to_text extract content
    let fs1 := store_document fs d Format.Text text
    let fs2 := match fetch_and_store_metadata ser lookup metaWriteOk now fs1 d with
      | Except.ok fsm => fsm
      | Except.error _ => fs1
    Except.ok (fs2, text)

example : DocumentType.parse (str "rfc9000") = some (DocumentType.Rfc 9000) := by decide
example : DocumentType.parse (str "RFC 9000") = some (DocumentType.Rfc 9000) := by decide
example : DocumentType.parse (str "  9000  ") = some (DocumentType.Rfc 9000) := by decide
example : DocumentType.parse (str "rfc") = none := by decide
example : DocumentType.parse (str "") = none := by decide
example : DocumentType.parse (str "draft-ietf-quic-transport-34") =
    some (DocumentType.Draft (str "draft-ietf-quic-transport-34")) := by decide
example : DocumentType.parse (str "0") = some (DocumentType.Rfc 0) := by decide
example : parse_document (str "X ") = DocumentType.Draft (str "draft-X ") := by decide

/-- Lower-casing is idempotent on code points. -/
lemma lowerChar_idem (c : Nat) : lowerChar (lowerChar c) = lowerChar c := by
  unfold lowerChar
  split
  · rename_i h
    rw [if_neg (by omega)]
  · rfl

/-- Lower-casing never changes whether a code point is whitespace. -/
lemma isWs_lowerChar (c : Nat) : isWs (lowerChar c) = isWs c := by
  unfold lowerChar
  split
  · rename_i h
    have h1 : isWs (c + 32) = false := by simp [isWs]; omega
    have h2 : isWs c = false := by simp [isWs]; omega
    rw [h1, h2]
  · rfl

/-- A digit code point is unchanged by lower-casing. -/
lemma lowerChar_of_isDigit {c : Nat} (h : isDigit c = true) : lowerChar c = c := by
  simp [isDigit] at h
  unfold lowerChar
  rw [if_neg (by omega)]

/-- A digit code point is not whitespace. -/
lemma isWs_of_isDigit {c : Nat} (h : isDigit c = true) : isWs c = false := by
  simp [isDigit] at h
  simp [isWs]
  omega

lemma lowerStr_idem (s : Str) : lowerStr (lowerStr s) = lowerStr s := by
  unfold lowerStr
  rw [List.map_map]
  exact List.map_congr_left (fun c _ => lowerChar_idem c)

/-- If a list survives dropWhile unchanged, its head fails the predicate. -/
lemma dropWhile_cons_self {p : Nat → Bool} {c : Nat} {l : Str}
    (h : List.dropWhile p (c :: l) = c :: l) : p c = false := by
  cases hpc : p c with
  | false => rfl
  | true =>
    rw [List.dropWhile_cons, if_pos hpc] at h
    have hle := (List.dropWhile_suffix (l := l) p).length_le
    rw [h] at hle
    simp at hle

/-- dropWhile fixes every prefix of a list it fixes. -/
lemma dropWhile_of_prefix {p : Nat → Bool} {l l2 : Str}
    (h : List.dropWhile p l = l) (hp : l2 <+: l) :
    List.dropWhile p l2 = l2 := by
  cases l2 with
  | nil => simp
  | cons c cs =>
    obtain ⟨t, ht⟩ := hp
    rw [← ht] at h
    have hpc : p c = false := by
      rw [List.cons_append] at h
      cases hpc : p c with
      | false => rfl
      | true =>
        rw [List.dropWhile_cons, if_pos hpc] at h
        have hle := (List.dropWhile_suffix (l := cs ++ t) p).length_le
        rw [h] at hle
        simp at hle
    rw [List.dropWhile_cons, if_neg (by simp [hpc])]

/-- Trimming is idempotent. -/
lemma trimStr_idem (s : Str) : trimStr (trimStr s) = trimStr s := by
  unfold trimStr
  have h1 : List.dropWhile isWs (List.dropWhile isWs s) = List.dropWhile isWs s :=
    List.dropWhile_idempotent _ _
  have h2 : List.dropWhile isWs (List.rdropWhile isWs (List.dropWhile isWs s)) =
      List.rdropWhile isWs (List.dropWhile isWs s) :=
    dropWhile_of_prefix h1 (List.rdropWhile_prefix _ _)
  rw [h2, List.rdropWhile_idempotent]

lemma rdropWhile_map (p : Nat → Bool) (f : Nat → Nat) (l : Str) :
    List.rdropWhile p (List.map f l) = List.map f (List.rdropWhile (p ∘ f) l) := by
  unfold List.rdropWhile
  rw [← List.map_reverse, List.dropWhile_map, List.map_reverse]

/-- Trimming commutes with lower-casing. -/
lemma trimStr_lowerStr (s : Str) : trimStr (lowerStr s) = lowerStr (trimStr s) := by
  have hws : (isWs ∘ lowerChar) = isWs := funext isWs_lowerChar
  unfold trimStr lowerStr
  rw [List.dropWhile_map, rdropWhile_map, hws]

/-- Normalisation (trim then lower-case) is idempotent. -/
lemma normStr_idem (s : Str) : normStr (normStr s) = normStr s := by
  unfold normStr
  rw [trimStr_lowerStr, trimStr_idem, lowerStr_idem]

/-- dropWhile fixes a list none of whose elements satisfy the predicate. -/
lemma dropWhile_of_all_not {p : Nat → Bool} {l : Str}
    (h : ∀ c ∈ l, p c = false) : List.dropWhile p l = l := by
  cases l with
  | nil => simp
  | cons c cs =>
    rw [List.dropWhile_cons, if_neg (by simp [h c (List.mem_cons_self c cs)])]

/-- Trimming fixes a list with no whitespace anywhere. -/
lemma trimStr_of_all_not {l : Str} (h : ∀ c ∈ l, isWs c = false) :
    trimStr l = l := by
  unfold trimStr
  rw [dropWhile_of_all_not h]
  rw [List.rdropWhile_eq_self_iff]
  intro hl
  simp [h _ (List.getLast_mem hl)]

/-- Lower-casing fixes a list of digit code points. -/
lemma lowerStr_of_all_digit {l : Str} (h : ∀ c ∈ l, isDigit c = true) :
    lowerStr l = l := by
  unfold lowerStr
  rw [List.map_congr_left (fun c hc => lowerChar_of_isDigit (h c hc))]
  exact List.map_id' l

/-- The decimal representation is never empty. -/
lemma natRepr_ne_nil (n : Nat) : natRepr n ≠ [] := by
  unfold natRepr
  split
  · simp
  · rename_i h
    simp [Nat.digits_ne_nil_iff_ne_zero, h]

/-- Every code point of a decimal representation is a digit. -/
lemma natRepr_all_digit (n : Nat) : ∀ c ∈ natRepr n, isDigit c = true := by
  unfold natRepr
  split
  · intro c hc
    simp at hc
    simp [hc, isDigit]
  · intro c hc
    simp at hc
    obtain ⟨d, hd, rfl⟩ := hc
    have hlt : d < 10 := Nat.digits_lt_base (by omega) hd
    simp [isDigit]
    omega

lemma foldr_digits_val (L : List Nat) :
    List.foldr (fun d a => 10 * a + d) 0 L = Nat.ofDigits 10 L := by
  induction L with
  | nil => simp [Nat.ofDigits]
  | cons d L ih =>
    rw [List.foldr_cons, ih, Nat.ofDigits_cons]
    omega

/-- Evaluating the digit-string of n yields n back. -/
lemma digitsVal_natRepr (n : Nat) : digitsVal (natRepr n) = n := by
  unfold natRepr digitsVal
  split
  · rename_i h
    subst h
    decide
  · rw [List.foldl_reverse, List.foldr_map]
    simp only [Nat.add_sub_cancel_left]
    rw [foldr_digits_val, Nat.ofDigits_digits]

/-- The plus-stripping step fixes a string whose head is a digit. -/
lemma plusStrip_of_digits {l : Str} (h : ∀ c ∈ l, isDigit c = true) :
    plusStrip l = l := by
  cases l with
  | nil => rfl
  | cons c cs =>
    have := h c (List.mem_cons_self c cs)
    simp [isDigit] at this
    simp only [plusStrip]
    rw [if_neg (by omega)]

/-- u32 parsing of a nonempty all-digit string succeeds exactly below 2^32. -/
lemma parseU32_digits {ds : Str} (hne : ds ≠ []) (h : ∀ c ∈ ds, isDigit c = true) :
    parseU32 ds = if digitsVal ds < 2 ^ 32 then some (digitsVal ds) else none := by
  unfold parseU32
  rw [plusStrip_of_digits h]
  rw [if_neg (by simp [hne]), if_pos (by simp [List.all_eq_true]; exact h)]

/-- u32 parsing succeeds on the decimal representation of n < 2^32. -/
lemma parseU32_natRepr {n : Nat} (h : n < 2 ^ 32) :
    parseU32 (natRepr n) = some n := by
  rw [parseU32_digits (natRepr_ne_nil n) (natRepr_all_digit n), digitsVal_natRepr,
    if_pos h]

/-- A successful u32 parse always yields a value below 2^32. -/
lemma parseU32_lt {s : Str} {n : Nat} (h : parseU32 s = some n) : n < 2 ^ 32 := by
  unfold parseU32 at h
  split at h
  · exact absurd h (by simp)
  · split at h
    · split at h
      · rename_i hlt
        injection h with h2
        omega
      · exact absurd h (by simp)
    · exact absurd h (by simp)

lemma stripPre_append (pre s : Str) : stripPre pre (pre ++ s) = some s := by
  induction pre with
  | nil => rfl
  | cons p ps ih => simp [stripPre, ih]

lemma stripPre_eq_some {pre s r : Str} (h : stripPre pre s = some r) :
    s = pre ++ r := by
  induction pre generalizing s with
  | nil =>
    simp only [stripPre, Option.some_inj] at h
    simp [h]
  | cons p ps ih =>
    cases s with
    | nil => exact absurd h (by simp [stripPre])
    | cons c cs =>
      unfold stripPre at h
      split at h
      · rename_i hpc
        rw [ih h, List.cons_append, hpc]
      · exact absurd h (by simp)

lemma startsWith_iff {pre s : Str} :
    startsWith pre s = true ↔ ∃ r, s = pre ++ r := by
  constructor
  · intro h
    unfold startsWith at h
    cases hs : stripPre pre s with
    | none => rw [hs] at h; simp at h
    | some r => exact ⟨r, stripPre_eq_some hs⟩
  · rintro ⟨r, rfl⟩
    unfold startsWith
    rw [stripPre_append]
    rfl


/-- A draft result of parseCore carries exactly the scrutinised string. -/
lemma parseCore_draft {s nm : Str}
    (h : parseCore s = some (DocumentType.Draft nm)) : nm = s := by
  unfold parseCore at h
  split at h
  · simp at h
  · split at h
    · simp at h
    · split at h
      · simp only [Option.some_inj, DocumentType.Draft.injEq] at h
        exact h.symm
      · simp at h

/-- An RFC number produced by parseCore fits in 32 bits. -/
lemma parseCore_rfc_lt {s : Str} {n : Nat}
    (h : parseCore s = some (DocumentType.Rfc n)) : n < 2 ^ 32 := by
  unfold parseCore at h
  split at h
  · rename_i m hm
    simp only [Option.some_inj, DocumentType.Rfc.injEq] at h
    subst h
    unfold rfcBranch at hm
    split at hm
    · exact parseU32_lt hm
    · simp at hm
  · split at h
    · rename_i m hm
      simp only [Option.some_inj, DocumentType.Rfc.injEq] at h
      subst h
      exact parseU32_lt hm
    · split at h
      · simp at h
      · simp at h

/-- A string without the letter d does not start with draft-. -/
lemma startsWith_draftDash_false {s : Str} (h : ∀ c ∈ s, c ≠ 100) :
    startsWith (str "draft-") s = false := by
  cases hq : startsWith (str "draft-") s with
  | false => rfl
  | true =>
    obtain ⟨r, hr⟩ := startsWith_iff.mp hq
    rw [show str "draft-" = 100 :: str "raft-" from by decide,
      List.cons_append] at hr
    cases s with
    | nil => simp at hr
    | cons c cs =>
      injection hr with h1 h2
      exact absurd h1 (h c (List.mem_cons_self c cs))

/-- A string without the letter d contains no draft substring. -/
lemma containsSub_draft_false {s : Str} (h : ∀ c ∈ s, c ≠ 100) :
    containsSub s (str "draft") = false := by
  induction s with
  | nil => rfl
  | cons c cs ih =>
    unfold containsSub
    rw [ih (fun x hx => h x (List.mem_cons_of_mem c hx))]
    have hsw : startsWith (str "draft") (c :: cs) = false := by
      cases hq : startsWith (str "draft") (c :: cs) with
      | false => rfl
      | true =>
        obtain ⟨r, hr⟩ := startsWith_iff.mp hq
        rw [show str "draft" = 100 :: str "raft" from by decide,
          List.cons_append] at hr
        injection hr with h1 h2
        exact absurd h1 (h c (List.mem_cons_self c cs))
    rw [hsw]
    rfl

/-- Normalisation fixes a string with no whitespace and no upper-case
letters. -/
lemma normStr_of_fixed {s : Str} (h1 : ∀ c ∈ s, isWs c = false)
    (h2 : ∀ c ∈ s, lowerChar c = c) : normStr s = s := by
  unfold normStr
  rw [trimStr_of_all_not h1]
  unfold lowerStr
  rw [List.map_congr_left h2]
  exact List.map_id' s

/-- Parsing the display form RFC <n> recovers the identifier. -/
lemma parse_display_rfc {n : Nat} (h : n < 2 ^ 32) :
    DocumentType.parse (str "RFC " ++ natRepr n) = some (DocumentType.Rfc n) := by
  have hdig : ∀ c ∈ natRepr n, isDigit c = true := natRepr_all_digit n
  have hnorm : normStr (str "RFC " ++ natRepr n) = str "rfc" ++ (32 :: natRepr n) := by
    unfold normStr
    have htrim : trimStr (str "RFC " ++ natRepr n) = str "RFC " ++ natRepr n := by
      unfold trimStr
      have hd : List.dropWhile isWs (str "RFC " ++ natRepr n) =
          str "RFC " ++ natRepr n := by
        rw [show str "RFC " ++ natRepr n = 82 :: (str "FC " ++ natRepr n) from rfl]
        rw [List.dropWhile_cons, if_neg (by decide)]
      rw [hd]
      rw [List.rdropWhile_eq_self_iff]
      intro hl
      rw [List.getLast_append_of_ne_nil (natRepr_ne_nil n)]
      simp [isWs_of_isDigit (hdig _ (List.getLast_mem (natRepr_ne_nil n)))]
    rw [htrim]
    unfold lowerStr
    rw [List.map_append]
    rw [show List.map lowerChar (str "RFC ") = str "rfc " from by decide]
    rw [show List.map lowerChar (natRepr n) = natRepr n from lowerStr_of_all_digit hdig]
    rw [show str "rfc " = str "rfc" ++ [32] from by decide, List.append_assoc]
    rfl
  unfold DocumentType.parse
  rw [hnorm]
  have htrim2 : trimStr (32 :: natRepr n) = natRepr n := by
    unfold trimStr
    rw [List.dropWhile_cons, if_pos (by decide)]
    rw [dropWhile_of_all_not (fun c hc => isWs_of_isDigit (hdig c hc))]
    rw [List.rdropWhile_eq_self_iff]
    intro hl
    simp [isWs_of_isDigit (hdig _ (List.getLast_mem hl))]
  have hrb : rfcBranch (str "rfc" ++ (32 :: natRepr n)) = some n := by
    unfold rfcBranch
    rw [stripPre_append]
    show parseU32 (trimStr (32 :: natRepr n)) = some n
    rw [htrim2]
    exact parseU32_natRepr h
  unfold parseCore
  rw [hrb]

/-- C6: for every string s such that parse(s) succeeds,
parse(displayName(parse(s))) also succeeds and yields an identifier equal
to parse(s); the canonical form round-trips for both RFC and Draft
variants. -/
theorem parse_display_roundtrip (s : Str) (d : DocumentType)
    (h : DocumentType.parse s = some d) :
    DocumentType.parse (DocumentType.display_name d) = some d := by
  cases d with
  | Rfc n =>
    unfold DocumentType.parse at h
    exact parse_display_rfc (parseCore_rfc_lt h)
  | Draft nm =>
    unfold DocumentType.parse at h
    have hnm : nm = normStr s := parseCore_draft h
    show parseCore (normStr nm) = some (DocumentType.Draft nm)
    rw [hnm] at h ⊢
    rw [normStr_idem]
    exact h

/-- Witness for C6 at a concrete draft input and identifier. -/
theorem parse_display_roundtrip_witness :
    DocumentType.parse (str "  Draft-IETF-QUIC-Transport-34 ") =
      some (DocumentType.Draft (str "draft-ietf-quic-transport-34")) ∧
    DocumentType.parse
        (DocumentType.display_name
          (DocumentType.Draft (str "draft-ietf-quic-transport-34"))) =
      some (DocumentType.Draft (str "draft-ietf-quic-transport-34")) :=
  ⟨by decide,
    parse_display_roundtrip (str "  Draft-IETF-QUIC-Transport-34 ")
      (DocumentType.Draft (str "draft-ietf-quic-transport-34")) (by decide)⟩

/-- C1 counterexample: the caller-side fallback parse_document embeds the
raw input verbatim, so the Draft name it produces for the input X(space) is
draft-X(space), which is neither lower-cased nor trimmed of trailing
whitespace; the claim that every Draft name produced by the identifier
parsing (parse or the parse_document fallback) is lower-cased and trimmed
is therefore false. -/
theorem draft_name_normalised_counterexample :
    ¬ (∀ s nm, parse_document s = DocumentType.Draft nm →
        lowerStr nm = nm ∧ trimStr nm = nm ∧ nm ≠ []) := by
  intro hall
  have h := hall (str "X ") (str "draft-X ") (by decide)
  have h1 : lowerStr (str "draft-X ") ≠ str "draft-X " := by decide
  exact h1 h.1

/-- C1 amended: a Draft produced by DocumentType::parse itself is
lower-cased, trimmed and non-empty; a Draft produced by the parse_document
fallback (when parse found no match) is non-empty and starts with draft-,
but carries the raw input verbatim. -/
theorem draft_name_invariants :
    (∀ s nm, DocumentType.parse s = some (DocumentType.Draft nm) →
      lowerStr nm = nm ∧ trimStr nm = nm ∧ nm ≠ []) ∧
    (∀ s nm, DocumentType.parse s = none →
      parse_document s = DocumentType.Draft nm →
      nm ≠ [] ∧ startsWith (str "draft-") nm = true) := by
  constructor
  · intro s nm h
    unfold DocumentType.parse at h
    have hnm : nm = normStr s := parseCore_draft h
    refine ⟨?_, ?_, ?_⟩
    · rw [hnm]
      unfold normStr
      exact lowerStr_idem _
    · rw [hnm]
      unfold normStr
      rw [trimStr_lowerStr, trimStr_idem]
    · intro hnil
      rw [hnil] at h
      unfold parseCore at h
      rw [hnm] at hnil
      rw [hnil] at h
      simp [rfcBranch, stripPre, parseU32, plusStrip, startsWith, containsSub,
        str] at h
  · intro s nm hnone hpd
    unfold parse_document at hpd
    rw [hnone] at hpd
    split at hpd
    · rename_i d hd
      exact absurd hd (by simp)
    · split at hpd
      · rename_i hsw
        injection hpd with he
        subst he
        refine ⟨?_, hsw⟩
        intro hnil
        rw [hnil] at hsw
        exact absurd hsw (by decide)
      · injection hpd with he
        subst he
        refine ⟨?_, startsWith_iff.mpr ⟨s, rfl⟩⟩
        intro hnil
        exact absurd (List.append_eq_nil.mp hnil).1 (by decide)

/-- Witness for C1 amended, applying both conjuncts at concrete inputs. -/
theorem draft_name_invariants_witness :
    (lowerStr (str "mydraft") = str "mydraft" ∧
      trimStr (str "mydraft") = str "mydraft" ∧ str "mydraft" ≠ []) ∧
    (str "draft-foo " ≠ ([] : Str) ∧
      startsWith (str "draft-") (str "draft-foo ") = true) :=
  ⟨draft_name_invariants.1 (str " MyDraft ") (str "mydraft") (by decide),
    draft_name_invariants.2 (str "foo ") (str "draft-foo ") (by decide)
      (by decide)⟩

/-- Digit code points are never the letter d. -/
lemma digits_ne_d {ds : Str} (hdig : ∀ c ∈ ds, isDigit c = true) :
    ∀ c ∈ ds, c ≠ 100 := by
  intro c hc
  have := hdig c hc
  simp [isDigit] at this
  omega

/-- u32 parsing of a nonempty all-digit string overflows to none when the
value does not fit. -/
lemma parseU32_overflow {ds : Str} (hne : ds ≠ [])
    (hdig : ∀ c ∈ ds, isDigit c = true) (hbig : 2 ^ 32 ≤ digitsVal ds) :
    parseU32 ds = none := by
  rw [parseU32_digits hne hdig, if_neg (by omega)]

/-- C9: an input whose numeral is too large for u32 parses to no match, not
an error: both the rfc-prefixed and the bare form of an overflowing digit
string fall through every rule of DocumentType::parse and yield none. -/
theorem parse_overflow_no_match (ds : Str) (hne : ds ≠ [])
    (hdig : ∀ c ∈ ds, isDigit c = true) (hbig : 2 ^ 32 ≤ digitsVal ds) :
    DocumentType.parse ds = none ∧
    DocumentType.parse (str "rfc" ++ ds) = none := by
  have hnd : ∀ c ∈ ds, c ≠ 100 := digits_ne_d hdig
  have hws : ∀ c ∈ ds, isWs c = false := fun c hc => isWs_of_isDigit (hdig c hc)
  constructor
  · unfold DocumentType.parse
    rw [normStr_of_fixed hws (fun c hc => lowerChar_of_isDigit (hdig c hc))]
    have hrb : rfcBranch ds = none := by
      unfold rfcBranch
      cases ds with
      | nil => exact absurd rfl hne
      | cons c cs =>
        have hc := hdig c (List.mem_cons_self c cs)
        simp [isDigit] at hc
        rw [show str "rfc" = 114 :: str "fc" from by decide]
        simp only [stripPre]
        rw [if_neg (by omega)]
    unfold parseCore
    rw [hrb, parseU32_overflow hne hdig hbig, startsWith_draftDash_false hnd,
      containsSub_draft_false hnd]
    rfl
  · unfold DocumentType.parse
    have hfix1 : ∀ c ∈ str "rfc" ++ ds, isWs c = false := by
      intro c hc
      rcases List.mem_append.mp hc with hL | hR
      · rw [show str "rfc" = [114, 102, 99] from by decide] at hL
        simp at hL
        rcases hL with rfl | rfl | rfl <;> decide
      · exact hws c hR
    have hfix2 : ∀ c ∈ str "rfc" ++ ds, lowerChar c = c := by
      intro c hc
      rcases List.mem_append.mp hc with hL | hR
      · rw [show str "rfc" = [114, 102, 99] from by decide] at hL
        simp at hL
        rcases hL with rfl | rfl | rfl <;> decide
      · exact lowerChar_of_isDigit (hdig c hR)
    rw [normStr_of_fixed hfix1 hfix2]
    have hrb : rfcBranch (str "rfc" ++ ds) = none := by
      unfold rfcBranch
      rw [stripPre_append]
      show parseU32 (trimStr ds) = none
      rw [trimStr_of_all_not hws]
      exact parseU32_overflow hne hdig hbig
    have hpu : parseU32 (str "rfc" ++ ds) = none := by
      have hps : plusStrip (str "rfc" ++ ds) = 114 :: (str "fc" ++ ds) := by
        rw [show str "rfc" ++ ds = 114 :: (str "fc" ++ ds) from rfl]
        simp only [plusStrip]
        rw [if_neg (by omega)]
      have hall : (114 :: (str "fc" ++ ds)).all isDigit = false := by
        simp [List.all_cons, isDigit]
      unfold parseU32
      rw [hps, hall]
      simp
    have hnd2 : ∀ c ∈ str "rfc" ++ ds, c ≠ 100 := by
      intro c hc
      rcases List.mem_append.mp hc with hL | hR
      · rw [show str "rfc" = [114, 102, 99] from by decide] at hL
        simp at hL
        rcases hL with rfl | rfl | rfl <;> decide
      · exact hnd c hR
    unfold parseCore
    rw [hrb, hpu, startsWith_draftDash_false hnd2, containsSub_draft_false hnd2]
    rfl

/-- Witness for C9 at the overflowing input of twenty nines. -/
theorem parse_overflow_no_match_witness :
    DocumentType.parse (str "99999999999999999999") = none ∧
    DocumentType.parse (str "rfc" ++ str "99999999999999999999") = none :=
  parse_overflow_no_match (str "99999999999999999999") (by decide)
    (by decide) (by decide)

/-- Erasing a path removes it. -/
lemma fsHas_erase_self (fs : FS) (p : Str) : fsHas (fsErase fs p) p = false := by
  unfold fsHas fsErase
  rw [List.any_eq_false]
  intro e he
  rw [List.mem_filter] at he
  simpa using he.2

/-- Erasing any path preserves the absence of another. -/
lemma fsHas_erase_mono {fs : FS} {p : Str} (h : fsHas fs p = false) (q : Str) :
    fsHas (fsErase fs q) p = false := by
  unfold fsHas at h ⊢
  unfold fsErase
  rw [List.any_eq_false] at h ⊢
  intro e he
  exact h e (List.mem_filter.mp he).1

/-- Erasing a different path does not change the presence of a path. -/
lemma fsHas_erase_ne {fs : FS} {p q : Str} (hne : p ≠ q) :
    fsHas (fsErase fs q) p = fsHas fs p := by
  induction fs with
  | nil => rfl
  | cons e fs ih =>
    unfold fsHas fsErase at ih ⊢
    rw [List.filter_cons]
    by_cases he : e.1 = q
    · rw [if_neg (by simp [he]), List.any_cons, ih]
      have hdp : decide (e.1 = p) = false := by
        simp [he]
        exact fun hc => hne hc.symm
      rw [hdp]
      simp
    · rw [if_pos (by simp [he]), List.any_cons, List.any_cons, ih]

/-- Reading right after writing a path yields the written content. -/
lemma fsRead_write_self (fs : FS) (p c : Str) :
    fsRead (fsWrite fs p c) p = some c := by
  unfold fsRead fsWrite
  rw [List.find?_cons_of_pos _ (by simp)]
  rfl

/-- Erasing a different path does not change a read. -/
lemma fsRead_erase_ne {fs : FS} {p q : Str} (hne : p ≠ q) :
    fsRead (fsErase fs q) p = fsRead fs p := by
  induction fs with
  | nil => rfl
  | cons e fs ih =>
    unfold fsRead fsErase at ih ⊢
    rw [List.filter_cons]
    by_cases hep : e.1 = p
    · have hkeep : decide (e.1 ≠ q) = true := by
        simp
        rw [hep]
        exact hne
      rw [if_pos hkeep]
      rw [List.find?_cons_of_pos _ (by simp [hep]),
        List.find?_cons_of_pos _ (by simp [hep])]
    · by_cases heq : e.1 = q
      · rw [if_neg (by simp [heq])]
        rw [ih, List.find?_cons_of_neg _ (by simp [hep])]
      · rw [if_pos (by simp [heq])]
        rw [List.find?_cons_of_neg _ (by simp [hep]),
          List.find?_cons_of_neg _ (by simp [hep])]
        exact ih

/-- Writing one path does not change a read at a different path. -/
lemma fsRead_write_ne {fs : FS} {p q : Str} (hne : p ≠ q) (c : Str) :
    fsRead (fsWrite fs q c) p = fsRead fs p := by
  unfold fsWrite
  show fsRead ((q, c) :: fsErase fs q) p = fsRead fs p
  unfold fsRead
  rw [List.find?_cons_of_neg _ (by simp; exact fun hc => hne hc.symm)]
  exact fsRead_erase_ne hne

/-- The html content path differs from the text content path of the same
document (different extension lengths). -/
lemma html_path_ne_text_path (d : DocumentType) :
    document_path d Format.Html ≠ document_path d Format.Text := by
  intro h
  have hlen := congrArg List.length h
  simp only [document_path, Format.extension, List.length_append] at hlen
  rw [show (str "html").length = 4 from by decide,
    show (str "txt").length = 3 from by decide] at hlen
  omega

/-- The text content path differs from the metadata path of the same
document (different suffix lengths). -/
lemma text_path_ne_metadata_path (d : DocumentType) :
    document_path d Format.Text ≠ metadata_path d := by
  intro h
  have hlen := congrArg List.length h
  simp only [document_path, metadata_path, Format.extension,
    List.length_append] at hlen
  rw [show (str "txt").length = 3 from by decide,
    show (str ".").length = 1 from by decide,
    show (str ".meta").length = 5 from by decide] at hlen
  omega

/-- Erasing an absent path changes nothing. -/
lemma fsErase_of_not_has (fs : FS) (p : Str) (h : fsHas fs p = false) :
    fsErase fs p = fs := by
  unfold fsHas at h
  unfold fsErase
  rw [List.any_eq_false] at h
  apply List.filter_eq_self.mpr
  intro e he
  simpa using h e he

/-- The state remove leaves behind: all three files erased. -/
lemma remove_fst (fs : FS) (d : DocumentType) :
    (remove fs d).1 =
      fsErase (fsErase (fsErase fs (document_path d Format.Html))
        (document_path d Format.Text)) (metadata_path d) := by
  unfold remove
  dsimp only
  split
  · split
    · split
      · rfl
      · rename_i h3
        rw [fsErase_of_not_has
          (fsErase (fsErase fs (document_path d Format.Html))
            (document_path d Format.Text))
          (metadata_path d) (by simpa using h3)]
    · rename_i h2
      rw [fsErase_of_not_has (fsErase fs (document_path d Format.Html))
        (document_path d Format.Text) (by simpa using h2)]
      split
      · rfl
      · rename_i h3
        rw [fsErase_of_not_has (fsErase fs (document_path d Format.Html))
          (metadata_path d) (by simpa using h3)]
  · rename_i h1
    rw [fsErase_of_not_has fs (document_path d Format.Html)
      (by simpa using h1)]
    split
    · split
      · rfl
      · rename_i h3
        rw [fsErase_of_not_has (fsErase fs (document_path d Format.Text))
          (metadata_path d) (by simpa using h3)]
    · rename_i h2
      rw [fsErase_of_not_has fs (document_path d Format.Text)
        (by simpa using h2)]
      split
      · rfl
      · rename_i h3
        rw [fsErase_of_not_has fs (metadata_path d) (by simpa using h3)]

/-- The flag remove returns: whether a content file was present. -/
lemma remove_snd (fs : FS) (d : DocumentType) :
    (remove fs d).2 =
      (fsHas fs (document_path d Format.Html) ||
        fsHas fs (document_path d Format.Text)) := by
  unfold remove
  dsimp only
  have hfs1 : fsHas
      (if fsHas fs (document_path d Format.Html) = true then
        fsErase fs (document_path d Format.Html)
      else fs) (document_path d Format.Text) =
      fsHas fs (document_path d Format.Text) := by
    split
    · exact fsHas_erase_ne (fun hc => html_path_ne_text_path d hc.symm)
    · rfl
  rw [hfs1]

/-- C2: remove deletes the html, text and metadata files when present,
returns true exactly when a content file (html or text) existed, never
counts metadata-only presence, and an immediately repeated call returns
false. -/
theorem remove_contract (fs : FS) (d : DocumentType) :
    ((remove fs d).2 = true ↔
      (fsHas fs (document_path d Format.Html) = true ∨
        fsHas fs (document_path d Format.Text) = true)) ∧
    fsHas (remove fs d).1 (document_path d Format.Html) = false ∧
    fsHas (remove fs d).1 (document_path d Format.Text) = false ∧
    fsHas (remove fs d).1 (metadata_path d) = false ∧
    (remove (remove fs d).1 d).2 = false := by
  have hfst := remove_fst fs d
  refine ⟨?_, ?_, ?_, ?_, ?_⟩
  · rw [remove_snd]
    cases fsHas fs (document_path d Format.Html) <;>
      cases fsHas fs (document_path d Format.Text) <;> simp
  · rw [hfst]
    exact fsHas_erase_mono (fsHas_erase_mono (fsHas_erase_self _ _) _) _
  · rw [hfst]
    exact fsHas_erase_mono (fsHas_erase_self _ _) _
  · rw [hfst]
    exact fsHas_erase_self _ _
  · rw [remove_snd, hfst]
    rw [fsHas_erase_mono (fsHas_erase_mono (fsHas_erase_self _ _) _) _,
      fsHas_erase_mono (fsHas_erase_self _ _) _]
    rfl


/-- The listing fold preserves freedom from duplicates. -/
lemma foldl_listStep_nodup (entries : List Str) (acc : List DocumentType)
    (h : acc.Nodup) : (entries.foldl listStep acc).Nodup := by
  induction entries generalizing acc with
  | nil => exact h
  | cons nm rest ih =>
    rw [List.foldl_cons]
    apply ih
    unfold listStep
    split
    · split
      · exact h
      · rename_i hmem
        simp [List.nodup_append]
        exact ⟨h, hmem⟩
    · exact h

/-- Membership in the listing fold: either already accumulated, or parsed
from the stem of some processed entry. -/
lemma foldl_listStep_mem (entries : List Str) (acc : List DocumentType)
    (d : DocumentType) :
    d ∈ entries.foldl listStep acc ↔
      d ∈ acc ∨ ∃ nm ∈ entries, DocumentType.parse (fileStem nm) = some d := by
  induction entries generalizing acc with
  | nil => simp
  | cons nm rest ih =>
    rw [List.foldl_cons, ih]
    constructor
    · rintro (hmem | ⟨nm2, hmem2, hp2⟩)
      · unfold listStep at hmem
        split at hmem
        · rename_i d2 hp2
          split at hmem
          · exact Or.inl hmem
          · rcases List.mem_append.mp hmem with hm | hm
            · exact Or.inl hm
            · simp at hm
              subst hm
              exact Or.inr ⟨nm, by simp, hp2⟩
        · exact Or.inl hmem
      · exact Or.inr ⟨nm2, by simp [hmem2], hp2⟩
    · rintro (hmem | ⟨nm2, hmem2, hp2⟩)
      · left
        unfold listStep
        split
        · split
          · exact hmem
          · exact List.mem_append.mpr (Or.inl hmem)
        · exact hmem
      · rcases List.mem_cons.mp hmem2 with hm | hm
        · subst hm
          left
          unfold listStep
          rw [hp2]
          show d ∈ (if d ∈ acc then acc else acc ++ [d])
          split
          · assumption
          · simp
        · exact Or.inr ⟨nm2, hm, hp2⟩

/-- C8: the cache listing contains each identifier at most once (a document
cached under both formats contributes one entry), and contains exactly the
identifiers parsed from the stems of the directory entries, so a file whose
base name does not parse is silently excluded rather than an error. -/
theorem list_cached_dedup (fs : FS) :
    (list_cached fs).Nodup ∧
    (∀ d, d ∈ list_cached fs ↔
      ∃ nm ∈ dirEntries fs, DocumentType.parse (fileStem nm) = some d) := by
  constructor
  · exact foldl_listStep_nodup (dirEntries fs) [] List.nodup_nil
  · intro d
    unfold list_cached list_cached_entries
    rw [foldl_listStep_mem]
    simp

/-- Concrete check: one document cached under both formats is listed
exactly once, and a stray unparseable file is skipped. -/
example :
    list_cached_entries
      [str "draft-a-b.html", str "draft-a-b.txt", str "notes.bak"] =
    [DocumentType.Draft (str "draft-a-b")] := by decide

/-- C10: get_metadata yields none whenever the sidecar is absent or its
contents fail to deserialize, and yields a value only from a well-formed
sidecar; list_cached_with_metadata therefore always produces one entry per
listed identifier, never failing on a corrupt sidecar. -/
theorem get_metadata_total (deser : Str → Except Str CacheMetadata)
    (fs : FS) (d : DocumentType) :
    (fsRead fs (metadata_path d) = none → get_metadata deser fs d = none) ∧
    (∀ c e, fsRead fs (metadata_path d) = some c →
      deser c = Except.error e → get_metadata deser fs d = none) ∧
    (∀ m, get_metadata deser fs d = some m →
      ∃ c, fsRead fs (metadata_path d) = some c ∧ deser c = Except.ok m) ∧
    (list_cached_with_metadata deser fs).length = (list_cached fs).length ∧
    (∀ cd ∈ list_cached_with_metadata deser fs,
      cd.metadata = get_metadata deser fs cd.doc_type) := by
  refine ⟨?_, ?_, ?_, ?_, ?_⟩
  · intro h
    unfold get_metadata
    rw [h]
  · intro c e h1 h2
    unfold get_metadata
    rw [h1]
    show (match deser c with
      | Except.ok m => some m
      | Except.error a => none) = none
    rw [h2]
  · intro m h
    unfold get_metadata at h
    split at h
    · exact absurd h (by simp)
    · rename_i c hc
      split at h
      · rename_i m2 hm2
        injection h with h2
        subst h2
        exact ⟨c, hc, hm2⟩
      · exact absurd h (by simp)
  · unfold list_cached_with_metadata
    rw [List.length_map]
  · intro cd hcd
    unfold list_cached_with_metadata at hcd
    rw [List.mem_map] at hcd
    obtain ⟨dt, hdt, rfl⟩ := hcd
    rfl

/-- Witness for C10: a present but corrupt sidecar yields none, not an
error. -/
theorem get_metadata_total_witness :
    get_metadata (fun _ => Except.error (str "corrupt"))
      [(metadata_path (DocumentType.Draft (str "draft-x")), str "junk")]
      (DocumentType.Draft (str "draft-x")) = none :=
  (get_metadata_total (fun _ => Except.error (str "corrupt"))
      [(metadata_path (DocumentType.Draft (str "draft-x")), str "junk")]
      (DocumentType.Draft (str "draft-x"))).2.1
    (str "junk") (str "corrupt") (by decide) rfl

/-- C3: a completed search reports has_more exactly when the server
returned a next-page cursor or the filtered, truncated document list has
exactly limit entries. -/
theorem search_has_more_iff (parseTime : Str → Option Nat) (next : Option Str)
    (objs : List ApiDocument) (query : Str) (limit : Nat) :
    (searchOutcome parseTime next objs query limit).has_more = true ↔
      (next.isSome = true ∨
        (searchOutcome parseTime next objs query limit).documents.length =
          limit) := by
  unfold searchOutcome
  dsimp only
  rw [Bool.or_eq_true]
  rw [decide_eq_true_eq]

/-- C7: the documents of a search result are exactly the response records
whose name starts with rfc or draft-, in server order, truncated to at most
limit entries. -/
theorem search_filter_truncate (parseTime : Str → Option Nat)
    (next : Option Str) (objs : List ApiDocument) (query : Str)
    (limit : Nat) :
    ((searchOutcome parseTime next objs query limit).documents.map
        (fun doc => doc.name) =
      ((objs.map (fun o => o.name)).filter
        (fun nm => startsWith (str "rfc") nm ||
          startsWith (str "draft-") nm)).take limit) ∧
    (searchOutcome parseTime next objs query limit).documents.length ≤
      limit := by
  unfold searchOutcome searchDocuments
  dsimp only
  constructor
  · rw [List.map_take, List.map_map, List.filter_map]
    rfl
  · exact List.length_take_le _ _

/-- Inversion for a successful metadata step: the state was written through
store_metadata with the looked-up title and the current timestamp. -/
lemma fetch_and_store_metadata_ok {ser : CacheMetadata → Str}
    {lookup : Except Str Str} {mwOk : Bool} {now : Nat} {fs : FS}
    {d : DocumentType} {fsm : FS}
    (h : fetch_and_store_metadata ser lookup mwOk now fs d = Except.ok fsm) :
    ∃ title, fsm = store_metadata ser fs d { title := title, cached_at := now } := by
  unfold fetch_and_store_metadata at h
  split at h
  · exact absurd h (by simp)
  · rename_i title
    split at h
    · injection h with h2
      exact ⟨title, h2.symm⟩
    · exact absurd h (by simp)

/-- C4: when the fetch succeeds and the content is cached, a failure of the
best-effort metadata step (remote lookup error or metadata write error)
leaves the operation successful: the content text is returned, the state is
exactly the one with the content stored, and nothing is rolled back. -/
theorem fetch_and_cache_metadata_nonfatal (extract : Str → Except Str Str)
    (ser : CacheMetadata → Str) (lookup : Except Str Str) (mwOk : Bool)
    (now : Nat) (fs : FS) (d : DocumentType) (content : Str) (fmt : Format)
    (hmf : (∃ e, lookup = Except.error e) ∨ mwOk = false) :
    fetch_and_cache extract ser lookup mwOk now fs d
        (Except.ok (content, fmt)) =
      Except.ok (store_document fs d Format.Text
          (match fmt with
            | Format.Text => content
            | Format.Html => html_to_text extract content),
        (match fmt with
          | Format.Text => content
          | Format.Html => html_to_text extract content)) ∧
    get_document (store_document fs d Format.Text
        (match fmt with
          | Format.Text => content
          | Format.Html => html_to_text extract content)) d Format.Text =
      some (match fmt with
        | Format.Text => content
        | Format.Html => html_to_text extract content) := by
  have hmeta : ∀ fs2, ∃ e2, fetch_and_store_metadata ser lookup mwOk now fs2 d =
      Except.error e2 := by
    intro fs2
    unfold fetch_and_store_metadata
    rcases hmf with ⟨e, he⟩ | hw
    · rw [he]
      exact ⟨e, rfl⟩
    · cases lookup with
      | error e => exact ⟨e, rfl⟩
      | ok title =>
        rw [hw]
        exact ⟨str "failed to write metadata", rfl⟩
  constructor
  · unfold fetch_and_cache
    dsimp only
    obtain ⟨e2, he2⟩ := hmeta (store_document fs d Format.Text
      (match fmt with
        | Format.Text => content
        | Format.Html => html_to_text extract content))
    rw [he2]
  · exact fsRead_write_self _ _ _

/-- Witness for C4: a network failure in the metadata lookup still returns
the fetched text and leaves it cached. -/
theorem fetch_and_cache_metadata_nonfatal_witness :
    fetch_and_cache (fun _ => Except.error (str "boom")) (fun m => m.title)
        (Except.error (str "offline")) true 7 []
        (DocumentType.Draft (str "draft-x"))
        (Except.ok (str "hello", Format.Text)) =
      Except.ok (store_document [] (DocumentType.Draft (str "draft-x"))
          Format.Text (str "hello"), str "hello") ∧
    get_document (store_document [] (DocumentType.Draft (str "draft-x"))
        Format.Text (str "hello")) (DocumentType.Draft (str "draft-x"))
        Format.Text = some (str "hello") :=
  fetch_and_cache_metadata_nonfatal (fun _ => Except.error (str "boom"))
    (fun m => m.title) (Except.error (str "offline")) true 7 []
    (DocumentType.Draft (str "draft-x")) (str "hello") Format.Text
    (Or.inl ⟨str "offline", rfl⟩)

/-- C5: when the fetcher returns html and extraction succeeds,
fetch_and_cache returns the extracted plain text and the resulting state
has that text cached under the text format, whatever was cached before. -/
theorem fetch_and_cache_html_extracted (extract : Str → Except Str Str)
    (ser : CacheMetadata → Str) (lookup : Except Str Str) (mwOk : Bool)
    (now : Nat) (fs : FS) (d : DocumentType) (content t : Str)
    (hex : extract content = Except.ok t) :
    (fetch_and_cache extract ser lookup mwOk now fs d
        (Except.ok (content, Format.Html))).map (fun r => r.2) =
      Except.ok t ∧
    (∀ fs2 text2, fetch_and_cache extract ser lookup mwOk now fs d
        (Except.ok (content, Format.Html)) = Except.ok (fs2, text2) →
      get_document fs2 d Format.Text = some t) := by
  have htext : html_to_text extract content = t := by
    unfold html_to_text
    rw [hex]
  constructor
  · unfold fetch_and_cache
    dsimp only
    rw [htext]
    split <;> rfl
  · intro fs2 text2 h
    unfold fetch_and_cache at h
    dsimp only at h
    rw [htext] at h
    split at h
    · rename_i fsm hm
      obtain ⟨title, hfsm⟩ := fetch_and_store_metadata_ok hm
      injection h with h2
      injection h2 with ha hb
      subst ha
      rw [hfsm]
      unfold get_document store_metadata
      rw [fsRead_write_ne (text_path_ne_metadata_path d)]
      exact fsRead_write_self _ _ _
    · injection h with h2
      injection h2 with ha hb
      subst ha
      exact fsRead_write_self _ _ _

/-- Witness for C5: a concrete html fetch whose extraction succeeds leaves
the extracted text cached under the text format. -/
theorem fetch_and_cache_html_extracted_witness :
    get_document
      (store_metadata (fun m => m.title)
        (store_document [] (DocumentType.Draft (str "draft-x"))
          Format.Text (str "hi"))
        (DocumentType.Draft (str "draft-x"))
        { title := str "T", cached_at := 0 })
      (DocumentType.Draft (str "draft-x")) Format.Text =
      some (str "hi") :=
  (fetch_and_cache_html_extracted (fun _ => Except.ok (str "hi"))
      (fun m => m.title) (Except.ok (str "T")) true 0 []
      (DocumentType.Draft (str "draft-x")) (str "<p>hi</p>") (str "hi")
      rfl).2
    (store_metadata (fun m => m.title)
      (store_document [] (DocumentType.Draft (str "draft-x"))
        Format.Text (str "hi"))
      (DocumentType.Draft (str "draft-x"))
      { title := str "T", cached_at := 0 })
    (str "hi") rfl
